import Mathlib

/-!
Verification development for the thermodynamics module interface of
`class_zdrift` (`src/include/thermodynamics.h`).

The repository ships only the header: macro definitions (`f1`, `f2`),
enumerations, struct layouts, numeric limit constants and the declarations
of the module's functions.  Definitions below that embed actual source text
say so in their doc comment; the bodies of the declared functions are not in
the repository, so where a claim depends on them the corresponding
definition is modelled from the specification (and from the header's own
doc comments) and is marked `Modelled from the spec:`.
-/

set_option maxHeartbeats 1000000

/- ===================== Source-backed definitions ===================== -/

/-- Smooth step from `thermodynamics.h` line 50:
`#define f1(x) (-0.75*x*(x*x/3.-1.)+0.5)`; per the header comment it
"goes from 0 to 1 when x goes from -1 to 1".  Stated over any linear
ordered field (the C literals 0.75 and 0.5 are exactly 3/4 and 1/2). -/
def f1 {K : Type*} [LinearOrderedField K] (x : K) : K := -(3/4)*x*(x*x/3-1)+1/2

/-- Smooth step from `thermodynamics.h` line 51:
`#define f2(x) (x*x*(0.5-x/3.)*6.)`; per the header comment it
"goes from 0 to 1 when x goes from 0 to 1". -/
def f2 {K : Type*} [LinearOrderedField K] (x : K) : K := x*x*(1/2-x/3)*6

/-- Enumeration `reionization_parametrization` from `thermodynamics.h`
lines 28-35, with exactly the six enumerators of the source. -/
inductive reionization_parametrization where
  | reio_none      -- no reionization
  | reio_camb      -- reionization parameterized like in CAMB
  | reio_bins_tanh -- binned reionization history with tanh interpolation
  | reio_half_tanh -- half a tanh, instead of the full tanh
  | reio_many_tanh -- similar to reio_camb but with more than one tanh
  | reio_inter     -- linear interpolation between specified points
  deriving DecidableEq, Fintype, Repr

/-- Constant `_YHE_BIG_ 0.5` from `thermodynamics.h` line 606 (maximal YHe). -/
def _YHE_BIG_ : ℚ := 0.5

/-- Constant `_YHE_SMALL_ 0.01` from `thermodynamics.h` line 607 (minimal YHe). -/
def _YHE_SMALL_ : ℚ := 0.01

/-- Constant `_Z_REC_MAX_ 2000.` from `thermodynamics.h` line 608. -/
def _Z_REC_MAX_ : ℚ := 2000

/-- Constant `_Z_REC_MIN_ 500.` from `thermodynamics.h` line 609. -/
def _Z_REC_MIN_ : ℚ := 500

/- ===================== Helper lemmas for f1 / f2 ===================== -/

lemma f1_hasDerivAt (x : ℝ) : HasDerivAt f1 ((3/4) * (1 - x^2)) x := by
  have h : HasDerivAt (fun y : ℝ => -(3/4)*y*(y*y/3-1)+1/2)
      ((3/4) * (1 - x^2)) x := by
    have h0 := (((hasDerivAt_id x).const_mul (-(3/4) : ℝ)).mul
      ((((hasDerivAt_id x).mul (hasDerivAt_id x)).div_const 3).sub_const 1)).add_const ((1:ℝ)/2)
    convert h0 using 1
    simp only [id_eq]
    ring
  exact h

lemma f2_hasDerivAt (x : ℝ) : HasDerivAt f2 (6 * (x - x^2)) x := by
  have h : HasDerivAt (fun y : ℝ => y*y*(1/2-y/3)*6) (6 * (x - x^2)) x := by
    have h0 := (((hasDerivAt_id x).mul (hasDerivAt_id x)).mul
      (((hasDerivAt_id x).div_const 3).const_sub ((1:ℝ)/2))).mul_const (6 : ℝ)
    convert h0 using 1
    simp only [id_eq]
    ring
  exact h

lemma f1_monotoneOn : MonotoneOn f1 (Set.Icc (-1 : ℝ) 1) := by
  intro x hx y hy hxy
  simp only [Set.mem_Icc] at hx hy
  have hx2 : x^2 ≤ 1 := by nlinarith [hx.1, hx.2]
  have hy2 : y^2 ≤ 1 := by nlinarith [hy.1, hy.2]
  have hxy2 : x*y ≤ 1 := by nlinarith [sq_nonneg (x - y)]
  have hfin : (0:ℝ) ≤ 3 - (x^2 + x*y + y^2) := by linarith
  have hmul := mul_nonneg (sub_nonneg.2 hxy) hfin
  simp only [f1]
  nlinarith [hmul]

lemma f2_monotoneOn : MonotoneOn f2 (Set.Icc (0 : ℝ) 1) := by
  intro x hx y hy hxy
  simp only [Set.mem_Icc] at hx hy
  have h1 : (0:ℝ) ≤ x * (1 - x) := mul_nonneg hx.1 (by linarith [hx.2])
  have h2 : (0:ℝ) ≤ y * (1 - y) := mul_nonneg hy.1 (by linarith [hy.2])
  have h3 : (0:ℝ) ≤ x * (1 - y) := mul_nonneg hx.1 (by linarith [hy.2])
  have h4 : (0:ℝ) ≤ y * (1 - x) := mul_nonneg hy.1 (by linarith [hx.2])
  have hfin : (0:ℝ) ≤ 3*(x+y) - 2*(x^2 + x*y + y^2) := by nlinarith
  have hmul := mul_nonneg (sub_nonneg.2 hxy) hfin
  simp only [f2]
  nlinarith [hmul]

/- ===================== Claim theorems (C3, C8, C10 part) ===================== -/

/-- C3: the regime-transition smoothing blends of the source are smoothsteps:
`f1` is 0 at -1 and 1 at 1 with vanishing derivative at both ends and is
non-decreasing on [-1,1]; `f2` is 0 at 0 and 1 at 1 with vanishing
derivative at both ends and is non-decreasing on [0,1]. -/
theorem smoothstep_f1_f2_spec :
    f1 (-1 : ℝ) = 0 ∧ f1 (1 : ℝ) = 1 ∧
    HasDerivAt (f1 : ℝ → ℝ) 0 (-1) ∧ HasDerivAt (f1 : ℝ → ℝ) 0 1 ∧
    MonotoneOn f1 (Set.Icc (-1 : ℝ) 1) ∧
    f2 (0 : ℝ) = 0 ∧ f2 (1 : ℝ) = 1 ∧
    HasDerivAt (f2 : ℝ → ℝ) 0 0 ∧ HasDerivAt (f2 : ℝ → ℝ) 0 1 ∧
    MonotoneOn f2 (Set.Icc (0 : ℝ) 1) := by
  refine ⟨by norm_num [f1], by norm_num [f1], ?_, ?_, f1_monotoneOn,
    by norm_num [f2], by norm_num [f2], ?_, ?_, f2_monotoneOn⟩
  · simpa using f1_hasDerivAt (-1)
  · simpa using f1_hasDerivAt 1
  · simpa using f2_hasDerivAt 0
  · simpa using f2_hasDerivAt 1

/-- C8 counterexample: the configuration enum `reionization_parametrization`
does not have exactly five values: it has six (including `reio_half_tanh`),
so no one-to-one correspondence with a five-element set of options exists. -/
theorem reionization_parametrization_not_five :
    Fintype.card reionization_parametrization = 6 ∧
    ¬ Nonempty (reionization_parametrization ≃ Fin 5) := by
  constructor
  · rfl
  · rintro ⟨e⟩
    have h5 := Fintype.card_congr e
    rw [Fintype.card_fin] at h5
    have h6 : Fintype.card reionization_parametrization = 6 := rfl
    exact absurd (h6.symm.trans h5) (by norm_num)

/-- C8 amended: the set of recognized reionization parametrization choices is
exactly six: none (`reio_none`), single-tanh (`reio_camb`), binned-tanh
(`reio_bins_tanh`), half-tanh (`reio_half_tanh`), multi-tanh
(`reio_many_tanh`) and piecewise-linear (`reio_inter`); every enum value is
one of these six pairwise-distinct options. -/
theorem reionization_parametrization_six :
    (∀ p : reionization_parametrization,
      p = .reio_none ∨ p = .reio_camb ∨ p = .reio_bins_tanh ∨
      p = .reio_half_tanh ∨ p = .reio_many_tanh ∨ p = .reio_inter) ∧
    Fintype.card reionization_parametrization = 6 := by
  constructor
  · intro p
    cases p <;> simp
  · rfl

/- ===================== Parameter tests and init pipeline ===================== -/

/-- Error-message zone type mirroring `ErrorMsg` of the source header. -/
def ErrMsg := String

instance : DecidableEq ErrMsg := inferInstanceAs (DecidableEq String)

instance {ε α : Type*} [DecidableEq ε] [DecidableEq α] : DecidableEq (Except ε α) := fun x y =>
  match x, y with
  | .error a, .error b =>
    if h : a = b then .isTrue (by rw [h])
    else .isFalse (by intro hc; injection hc; exact h ‹_›)
  | .error _, .ok _ => .isFalse (fun hc => Except.noConfusion hc)
  | .ok _, .error _ => .isFalse (fun hc => Except.noConfusion hc)
  | .ok a, .ok b =>
    if h : a = b then .isTrue (by rw [h])
    else .isFalse (by intro hc; injection hc; exact h ‹_›)

/-- Modelled from the spec: the body of `thermodynamics_test_parameters`
(declared at `thermodynamics.h` lines 418-420) is not in src/; per spec
section 7 it detects out-of-range input parameters before integration
starts, rejecting a primordial helium fraction outside
`[_YHE_SMALL_, _YHE_BIG_]` (constants from the header, lines 606-607) with
a message in the error zone. -/
def thermodynamics_test_parameters (YHe : ℚ) : Except ErrMsg Unit :=
  if YHe < _YHE_SMALL_ then .error "YHe smaller than minimal value"
  else if _YHE_BIG_ < YHe then .error "YHe bigger than maximal value"
  else .ok ()

/-- Modelled from the spec: the recombination-redshift sanity check inside
`thermodynamics_calculate_recombination_quantities` (declared at
`thermodynamics.h` lines 552-556) is not in src/; per the claim sources the
redshift of maximum visibility extracted from the completed table must lie
within `[_Z_REC_MIN_, _Z_REC_MAX_]` (constants from the header, lines
608-609), an error being signaled otherwise. -/
def thermodynamics_check_z_rec (z_rec : ℚ) : Except ErrMsg Unit :=
  if z_rec < _Z_REC_MIN_ then .error "z_rec smaller than _Z_REC_MIN_"
  else if _Z_REC_MAX_ < z_rec then .error "z_rec bigger than _Z_REC_MAX_"
  else .ok ()

/-- Configuration and abstracted numerical outcomes of one history
computation, as needed by the init pipeline model. -/
structure ThermoConfig where
  YHe : ℚ
  solve_converges : Bool
  z_rec : ℚ
  table : List (List ℚ)

/-- Modelled from the spec: the body of `thermodynamics_init` (declared at
`thermodynamics.h` lines 412-414) is not in src/; per spec sections 2 and 7
it runs the stage chain (parameter test, history solve, table assembly with
the recombination-epoch check); each stage returns a status, and on the
first non-success status init aborts immediately with that message and
exposes no table.  The numerical content of the stages is abstracted: the
config records whether the stiff solver converges and which recombination
redshift the assembled table yields. -/
def thermodynamics_init (c : ThermoConfig) : Except ErrMsg (List (List ℚ)) :=
  match thermodynamics_test_parameters c.YHe with
  | .error e => .error e
  | .ok _ =>
    if c.solve_converges = false then .error "thermodynamics solve: stepper did not converge"
    else match thermodynamics_check_z_rec c.z_rec with
      | .error e => .error e
      | .ok _ => .ok c.table

/-- C10: parameter validation enforces the hard numeric bounds of the
header: YHe is accepted exactly when it lies in `[_YHE_SMALL_, _YHE_BIG_]`
= [0.01, 0.5], and the recombination redshift must lie in
`[_Z_REC_MIN_, _Z_REC_MAX_]` = [500, 2000], with an error signaled
otherwise. -/
theorem parameter_bounds_YHe_zrec :
    (∀ YHe : ℚ, thermodynamics_test_parameters YHe = .ok () ↔
        _YHE_SMALL_ ≤ YHe ∧ YHe ≤ _YHE_BIG_) ∧
    (∀ z : ℚ, thermodynamics_check_z_rec z = .ok () ↔
        _Z_REC_MIN_ ≤ z ∧ z ≤ _Z_REC_MAX_) ∧
    _YHE_SMALL_ = 1/100 ∧ _YHE_BIG_ = 1/2 ∧ _Z_REC_MIN_ = 500 ∧ _Z_REC_MAX_ = 2000 := by
  refine ⟨?_, ?_, by norm_num [_YHE_SMALL_], by norm_num [_YHE_BIG_], rfl, rfl⟩
  · intro YHe
    unfold thermodynamics_test_parameters
    split_ifs with h1 h2
    · constructor
      · intro h; exact absurd h (by simp)
      · intro h; exact absurd h1 (not_lt.2 h.1)
    · constructor
      · intro h; exact absurd h (by simp)
      · intro h; exact absurd h2 (not_lt.2 h.2)
    · exact ⟨fun _ => ⟨not_lt.1 h1, not_lt.1 h2⟩, fun _ => rfl⟩
  · intro z
    unfold thermodynamics_check_z_rec
    split_ifs with h1 h2
    · constructor
      · intro h; exact absurd h (by simp)
      · intro h; exact absurd h1 (not_lt.2 h.1)
    · constructor
      · intro h; exact absurd h (by simp)
      · intro h; exact absurd h2 (not_lt.2 h.2)
    · exact ⟨fun _ => ⟨not_lt.1 h1, not_lt.1 h2⟩, fun _ => rfl⟩

/-- C10 witness: the bounds theorem instantiated at YHe = 1/4 and
z_rec = 1100, both accepted. -/
theorem parameter_bounds_YHe_zrec_witness :
    (thermodynamics_test_parameters (1/4) = .ok () ↔
        _YHE_SMALL_ ≤ (1/4 : ℚ) ∧ (1/4 : ℚ) ≤ _YHE_BIG_) ∧
    (thermodynamics_check_z_rec 1100 = .ok () ↔
        _Z_REC_MIN_ ≤ (1100 : ℚ) ∧ (1100 : ℚ) ≤ _Z_REC_MAX_) :=
  ⟨parameter_bounds_YHe_zrec.1 (1/4), parameter_bounds_YHe_zrec.2.1 1100⟩

/-- C7: on any stage failure the failing operation returns a non-success
status carrying its message; the error propagates by immediate abort
(earlier-stage errors are returned unchanged, regardless of later-stage
data), and the computation fails atomically: a table is produced exactly
when every stage succeeded, and a failed init exposes no table. -/
theorem thermodynamics_init_error_propagation :
    (∀ c e, thermodynamics_test_parameters c.YHe = .error e →
        thermodynamics_init c = .error e) ∧
    (∀ c, thermodynamics_test_parameters c.YHe = .ok () → c.solve_converges = false →
        thermodynamics_init c = .error "thermodynamics solve: stepper did not converge") ∧
    (∀ c e, thermodynamics_test_parameters c.YHe = .ok () → c.solve_converges = true →
        thermodynamics_check_z_rec c.z_rec = .error e → thermodynamics_init c = .error e) ∧
    (∀ c e, thermodynamics_init c = .error e → ∀ t, ¬ thermodynamics_init c = .ok t) ∧
    (∀ c t, thermodynamics_init c = .ok t →
        thermodynamics_test_parameters c.YHe = .ok () ∧ c.solve_converges = true ∧
        thermodynamics_check_z_rec c.z_rec = .ok () ∧ t = c.table) := by
  refine ⟨?_, ?_, ?_, ?_, ?_⟩
  · intro c e h
    simp [thermodynamics_init, h]
  · intro c h hs
    simp [thermodynamics_init, h, hs]
  · intro c e h hs hz
    simp [thermodynamics_init, h, hs, hz]
  · intro c e h t hok
    rw [h] at hok
    exact Except.noConfusion hok
  · intro c t h
    unfold thermodynamics_init at h
    rcases htest : thermodynamics_test_parameters c.YHe with e | u
    · rw [htest] at h
      exact Except.noConfusion h
    · rw [htest] at h
      cases u
      rcases hs : c.solve_converges with _ | _
      · rw [hs] at h
        rw [if_pos rfl] at h
        exact Except.noConfusion h
      · rw [hs] at h
        rw [if_neg (by decide : ¬(true = false))] at h
        rcases hz : thermodynamics_check_z_rec c.z_rec with e' | u'
        · rw [hz] at h
          exact Except.noConfusion h
        · rw [hz] at h
          cases u'
          refine ⟨rfl, rfl, rfl, ?_⟩
          injection h with h2
          exact h2.symm

/-- C7 witness: a configuration with YHe = 1 (out of bounds) makes init
fail atomically with the parameter-test message. -/
theorem thermodynamics_init_error_propagation_witness :
    thermodynamics_init ⟨1, true, 1100, [[1]]⟩ = .error "YHe bigger than maximal value" :=
  thermodynamics_init_error_propagation.1 ⟨1, true, 1100, [[1]]⟩ _ (by
    unfold thermodynamics_test_parameters
    rw [if_neg (by norm_num [_YHE_SMALL_]), if_pos (by norm_num [_YHE_BIG_])])

/- ===================== List helpers ===================== -/

lemma getD_eq_get {α : Type*} (L : List α) (d : α) :
    ∀ (i : ℕ), ∀ h : i < L.length, L.getD i d = L.get ⟨i, h⟩ := by
  induction L with
  | nil => intro i h; simp at h
  | cons a t ih =>
    intro i h
    cases i with
    | zero => rfl
    | succ n => simpa using ih n (by simpa using h)

lemma sorted_getD_lt {L : List ℚ} (hL : L.Chain' (· < ·)) {i j : ℕ}
    (hij : i < j) (hj : j < L.length) : L.getD i 0 < L.getD j 0 := by
  have hp := (List.chain'_iff_pairwise).1 hL
  have hi : i < L.length := lt_trans hij hj
  have h := (List.pairwise_iff_get.1 hp) ⟨i, hi⟩ ⟨j, hj⟩ hij
  rw [getD_eq_get L 0 i hi, getD_eq_get L 0 j hj]
  exact h

lemma sorted_getD_le {L : List ℚ} (hL : L.Chain' (· < ·)) {i j : ℕ}
    (hij : i ≤ j) (hj : j < L.length) : L.getD i 0 ≤ L.getD j 0 := by
  rcases Nat.lt_or_ge i j with h | h
  · exact le_of_lt (sorted_getD_lt hL h hj)
  · have : i = j := le_antisymm hij h
    rw [this]

lemma sorted_getD_le_index {L : List ℚ} (hL : L.Chain' (· < ·)) {i j : ℕ}
    (hi : i < L.length) (hj : j < L.length)
    (hij : L.getD i 0 ≤ L.getD j 0) : i ≤ j := by
  by_contra h
  exact absurd (sorted_getD_lt hL (Nat.lt_of_not_le h) hi) (not_lt.2 hij)

/- ===================== Interpolation (point query) ===================== -/

/-- Interpolation hint flags of the source (`thermo.inter_normal`,
`thermo.inter_closeby`, thermodynamics.h lines 228-229). -/
inductive InterMode where
  | inter_normal
  | inter_closeby
  deriving DecidableEq

/-- Modelled from the spec: the cubic-spline point evaluation used by the
external spline-builder primitive (spec section 6); given one bracketing
interval `[zlo, zhi]`, the stored values and second derivatives at its two
ends, it returns the standard natural-cubic-spline value at `z`. -/
def spline_interp (zlo zhi ylo yhi y2lo y2hi z : ℚ) : ℚ :=
  let h := zhi - zlo
  let a := (zhi - z) / h
  let b := (z - zlo) / h
  a * ylo + b * yhi + ((a^3 - a) * y2lo + (b^3 - b) * y2hi) * h^2 / 6

lemma spline_interp_left {zlo zhi : ℚ} (hne : zlo ≠ zhi) (ylo yhi y2lo y2hi : ℚ) :
    spline_interp zlo zhi ylo yhi y2lo y2hi zlo = ylo := by
  have h0 : zhi - zlo ≠ 0 := sub_ne_zero.2 (Ne.symm hne)
  simp only [spline_interp]
  field_simp

lemma spline_interp_right {zlo zhi : ℚ} (hne : zlo ≠ zhi) (ylo yhi y2lo y2hi : ℚ) :
    spline_interp zlo zhi ylo yhi y2lo y2hi zhi = yhi := by
  have h0 : zhi - zlo ≠ 0 := sub_ne_zero.2 (Ne.symm hne)
  simp only [spline_interp]
  field_simp

/-- Modelled from the spec: columnwise spline evaluation of one table row
between the bracketing rows `ylo` (at `zlo`) and `yhi` (at `zhi`) with
second-derivative rows `y2lo`, `y2hi`. -/
def spline_row (zlo zhi : ℚ) (ylo yhi y2lo y2hi : List ℚ) (z : ℚ) : List ℚ :=
  List.zipWith (fun p q => spline_interp zlo zhi p.1 p.2 q.1 q.2 z)
    (ylo.zip yhi) (y2lo.zip y2hi)

lemma spline_row_left {zlo zhi : ℚ} (hne : zlo ≠ zhi) :
    ∀ (ylo yhi y2lo y2hi : List ℚ), yhi.length = ylo.length →
      y2lo.length = ylo.length → y2hi.length = ylo.length →
      spline_row zlo zhi ylo yhi y2lo y2hi zlo = ylo := by
  intro ylo
  induction ylo with
  | nil => intro yhi y2lo y2hi h1 h2 h3; simp [spline_row]
  | cons a t ih =>
    intro yhi y2lo y2hi h1 h2 h3
    cases yhi with
    | nil => simp at h1
    | cons b tb =>
      cases y2lo with
      | nil => simp at h2
      | cons c tc =>
        cases y2hi with
        | nil => simp at h3
        | cons d td =>
          show spline_interp zlo zhi a b c d zlo :: spline_row zlo zhi t tb tc td zlo = a :: t
          rw [spline_interp_left hne, ih tb tc td (by simpa using h1)
            (by simpa using h2) (by simpa using h3)]

lemma spline_row_right {zlo zhi : ℚ} (hne : zlo ≠ zhi) :
    ∀ (ylo yhi y2lo y2hi : List ℚ), ylo.length = yhi.length →
      y2lo.length = yhi.length → y2hi.length = yhi.length →
      spline_row zlo zhi ylo yhi y2lo y2hi zhi = yhi := by
  intro ylo
  induction ylo with
  | nil =>
    intro yhi y2lo y2hi h1 h2 h3
    cases yhi with
    | nil => simp [spline_row]
    | cons b tb => simp at h1
  | cons a t ih =>
    intro yhi y2lo y2hi h1 h2 h3
    cases yhi with
    | nil => simp at h1
    | cons b tb =>
      cases y2lo with
      | nil => simp at h2
      | cons c tc =>
        cases y2hi with
        | nil => simp at h3
        | cons d td =>
          show spline_interp zlo zhi a b c d zhi :: spline_row zlo zhi t tb tc td zhi = b :: tb
          rw [spline_interp_right hne, ih tb tc td (by simpa using h1)
            (by simpa using h2) (by simpa using h3)]

/-- Modelled from the spec: the bracketing-index search of the point query:
the first interval `[z_table[i], z_table[i+1]]` whose right end is at or
beyond the query redshift (fresh lookup of spec section 4.6). -/
def bracket_index : List ℚ → ℚ → ℕ
  | [], _ => 0
  | [_], _ => 0
  | _ :: z1 :: rest, z => if z ≤ z1 then 0 else bracket_index (z1 :: rest) z + 1

lemma bracket_index_node :
    ∀ (L : List ℚ), L.Chain' (· < ·) → ∀ i : ℕ, i < L.length → 2 ≤ L.length →
      bracket_index L (L.getD i 0) = if i = 0 then 0 else i - 1 := by
  intro L
  induction L with
  | nil => intro _ i _ h2; simp at h2
  | cons z0 t ih =>
    intro hL i hi h2
    cases t with
    | nil => simp at h2
    | cons z1 rest =>
      have h01 : z0 < z1 := (List.chain'_cons.1 hL).1
      have hchain : (z1 :: rest).Chain' (· < ·) := (List.chain'_cons.1 hL).2
      match i with
      | 0 =>
        show (if z0 ≤ z1 then 0 else bracket_index (z1 :: rest) z0 + 1) = 0
        rw [if_pos (le_of_lt h01)]
      | 1 =>
        show (if z1 ≤ z1 then 0 else bracket_index (z1 :: rest) z1 + 1) = 0
        rw [if_pos (le_refl z1)]
      | (k+2) =>
        have hlen : k + 1 < (z1 :: rest).length := by
          simpa using Nat.lt_of_succ_lt_succ hi
        have hz : z1 < (z1 :: rest).getD (k+1) 0 := by
          have h := sorted_getD_lt hchain (Nat.succ_pos k) hlen
          simpa using h
        show (if (z1 :: rest).getD (k+1) 0 ≤ z1 then 0
              else bracket_index (z1 :: rest) ((z1 :: rest).getD (k+1) 0) + 1) = k + 1
        rw [if_neg (not_le.2 hz)]
        rw [ih hchain (k+1) hlen (by simp only [List.length_cons] at hlen ⊢; omega)]
        simp

/-- Modelled from the spec: the index selection of the point query
`thermodynamics_at_z` (declared at `thermodynamics.h` lines 404-410): a
fresh search in `inter_normal` mode, and in `inter_closeby` mode reuse of
the caller's previous bracketing index when it still brackets the query,
falling back to a fresh search otherwise. -/
def at_z_index (ztab : List ℚ) (z : ℚ) (mode : InterMode) (last_index : ℕ) : ℕ :=
  match mode with
  | .inter_normal => bracket_index ztab z
  | .inter_closeby =>
    if last_index + 1 < ztab.length ∧ ztab.getD last_index 0 ≤ z ∧
        z ≤ ztab.getD (last_index + 1) 0
    then last_index
    else bracket_index ztab z

/-- Modelled from the spec: the body of `thermodynamics_at_z` (declared at
`thermodynamics.h` lines 404-410) is not in src/; per spec section 4.6 it
locates the bracketing pair of table rows for the query redshift (fresh or
hinted search) and returns the columnwise spline-interpolated row together
with the bracketing index for reuse on the next call. -/
def thermodynamics_at_z (ztab : List ℚ) (ttab d2tab : List (List ℚ)) (z : ℚ)
    (inter_mode : InterMode) (last_index : ℕ) : List ℚ × ℕ :=
  let i := at_z_index ztab z inter_mode last_index
  (spline_row (ztab.getD i 0) (ztab.getD (i+1) 0) (ttab.getD i []) (ttab.getD (i+1) [])
    (d2tab.getD i []) (d2tab.getD (i+1) []) z, i)

lemma at_z_index_bracket (ztab : List ℚ) (hsort : ztab.Chain' (· < ·))
    (h2 : 2 ≤ ztab.length) (i : ℕ) (hi : i < ztab.length)
    (mode : InterMode) (last_index : ℕ) :
    at_z_index ztab (ztab.getD i 0) mode last_index + 1 < ztab.length ∧
    ztab.getD (at_z_index ztab (ztab.getD i 0) mode last_index) 0 ≤ ztab.getD i 0 ∧
    ztab.getD i 0 ≤ ztab.getD (at_z_index ztab (ztab.getD i 0) mode last_index + 1) 0 := by
  have hfresh : bracket_index ztab (ztab.getD i 0) + 1 < ztab.length ∧
      ztab.getD (bracket_index ztab (ztab.getD i 0)) 0 ≤ ztab.getD i 0 ∧
      ztab.getD i 0 ≤ ztab.getD (bracket_index ztab (ztab.getD i 0) + 1) 0 := by
    rw [bracket_index_node ztab hsort i hi h2]
    rcases Nat.eq_zero_or_pos i with h0 | hpos
    · subst h0
      rw [if_pos rfl]
      exact ⟨by omega, le_refl _, le_of_lt (sorted_getD_lt hsort Nat.zero_lt_one (by omega))⟩
    · rw [if_neg (by omega)]
      have hi1 : i - 1 + 1 = i := by omega
      rw [hi1]
      exact ⟨hi, sorted_getD_le hsort (by omega) hi, le_refl _⟩
  cases mode with
  | inter_normal => exact hfresh
  | inter_closeby =>
    simp only [at_z_index]
    split_ifs with hc
    · exact ⟨hc.1, hc.2.1, hc.2.2⟩
    · exact hfresh

lemma spline_row_node (ztab : List ℚ) (ttab d2tab : List (List ℚ)) (th_size : ℕ)
    (hsort : ztab.Chain' (· < ·))
    (hlt : ttab.length = ztab.length) (hld : d2tab.length = ztab.length)
    (hrt : ∀ r ∈ ttab, r.length = th_size) (hrd : ∀ r ∈ d2tab, r.length = th_size)
    (i j : ℕ) (hi : i < ztab.length) (hj1 : j + 1 < ztab.length)
    (hlo : ztab.getD j 0 ≤ ztab.getD i 0) (hhi : ztab.getD i 0 ≤ ztab.getD (j+1) 0) :
    spline_row (ztab.getD j 0) (ztab.getD (j+1) 0) (ttab.getD j []) (ttab.getD (j+1) [])
      (d2tab.getD j []) (d2tab.getD (j+1) []) (ztab.getD i 0) = ttab.getD i [] := by
  have hne : ztab.getD j 0 ≠ ztab.getD (j+1) 0 :=
    ne_of_lt (sorted_getD_lt hsort (Nat.lt_succ_self j) hj1)
  have hji : j ≤ i := sorted_getD_le_index hsort (by omega) hi hlo
  have hij : i ≤ j + 1 := sorted_getD_le_index hsort hi hj1 hhi
  have hmem : ∀ (tab : List (List ℚ)) (k : ℕ), k < tab.length → tab.getD k [] ∈ tab := by
    intro tab k hk
    rw [getD_eq_get tab [] k hk]
    exact List.get_mem tab k hk
  have lt_j : (ttab.getD j []).length = th_size := hrt _ (hmem ttab j (by omega))
  have lt_j1 : (ttab.getD (j+1) []).length = th_size := hrt _ (hmem ttab (j+1) (by omega))
  have ld_j : (d2tab.getD j []).length = th_size := hrd _ (hmem d2tab j (by omega))
  have ld_j1 : (d2tab.getD (j+1) []).length = th_size := hrd _ (hmem d2tab (j+1) (by omega))
  rcases Nat.eq_or_lt_of_le hji with hji' | hji'
  · subst hji'
    rw [spline_row_left hne _ _ _ _ (by omega) (by omega) (by omega)]
  · have : i = j + 1 := by omega
    subst this
    rw [spline_row_right hne _ _ _ _ (by omega) (by omega) (by omega)]

/-- C5: at every tabulated node `z_table[i]` of a consistent, fully built
table, the point query (in either `inter_normal` or `inter_closeby` mode,
for any previous hint) returns exactly the stored table row `i`, and the
returned lookup index is a valid bracketing index for the query redshift,
suitable for reuse on the next call. -/
theorem thermodynamics_at_z_node_exact (ztab : List ℚ) (ttab d2tab : List (List ℚ))
    (th_size : ℕ) (hsort : ztab.Chain' (· < ·)) (h2 : 2 ≤ ztab.length)
    (hlt : ttab.length = ztab.length) (hld : d2tab.length = ztab.length)
    (hrt : ∀ r ∈ ttab, r.length = th_size) (hrd : ∀ r ∈ d2tab, r.length = th_size)
    (i : ℕ) (hi : i < ztab.length) (mode : InterMode) (last_index : ℕ) :
    (thermodynamics_at_z ztab ttab d2tab (ztab.getD i 0) mode last_index).1 =
      ttab.getD i [] ∧
    (thermodynamics_at_z ztab ttab d2tab (ztab.getD i 0) mode last_index).2 + 1 <
      ztab.length ∧
    ztab.getD ((thermodynamics_at_z ztab ttab d2tab (ztab.getD i 0) mode last_index).2) 0 ≤
      ztab.getD i 0 ∧
    ztab.getD i 0 ≤
      ztab.getD ((thermodynamics_at_z ztab ttab d2tab (ztab.getD i 0) mode last_index).2 + 1) 0 := by
  obtain ⟨hb1, hb2, hb3⟩ := at_z_index_bracket ztab hsort h2 i hi mode last_index
  refine ⟨?_, hb1, hb2, hb3⟩
  exact spline_row_node ztab ttab d2tab th_size hsort hlt hld hrt hrd i _ hi hb1 hb2 hb3

/-- C5 witness: the node-exactness theorem applied to a concrete three-row
table at node 1 in `inter_closeby` mode with a stale hint. -/
theorem thermodynamics_at_z_node_exact_witness :
    (thermodynamics_at_z [0, 1, 2] [[10, 20], [30, 40], [50, 60]]
      [[0, 0], [0, 0], [0, 0]] (([0, 1, 2] : List ℚ).getD 1 0)
      .inter_closeby 7).1 = ([[10, 20], [30, 40], [50, 60]] : List (List ℚ)).getD 1 [] :=
  (thermodynamics_at_z_node_exact [0, 1, 2] [[10, 20], [30, 40], [50, 60]]
    [[0, 0], [0, 0], [0, 0]] 2 (by norm_num [List.chain'_cons]) (by decide) (by decide)
    (by decide) (by decide) (by decide) 1 (by decide) .inter_closeby 7).1

/- ===================== Point-query frame property ===================== -/

/-- Full mutable state visible to the point query: the table fields of
`struct thermo` (`thermodynamics.h` lines 169-181) plus the caller-supplied
output locations (`pvecthermo`, `pvecback`, `last_index`). -/
structure ThermoState where
  tt_size : ℕ
  z_table : List ℚ
  tau_table : List ℚ
  thermodynamics_table : List (List ℚ)
  d2thermodynamics_dz2_table : List (List ℚ)
  last_index : ℕ
  pvecthermo : List ℚ
  pvecback : List ℚ

/-- Modelled from the spec: the point query as a transformer of the full
module state; per spec sections 3 and 4.6 the completed table is consumed
read-only and the query writes only the caller-visible outputs
(`pvecthermo`, the background buffer `pvecback`, and the lookup hint
`last_index`). -/
def thermodynamics_at_z_state (s : ThermoState) (z : ℚ) (mode : InterMode)
    (back_row : List ℚ) : ThermoState :=
  let r := thermodynamics_at_z s.z_table s.thermodynamics_table
    s.d2thermodynamics_dz2_table z mode s.last_index
  { s with pvecthermo := r.1, last_index := r.2, pvecback := back_row }

/-- C9: once the table is built, every point query leaves the table state
unchanged: `tt_size`, `z_table`, `tau_table`, `thermodynamics_table` and
`d2thermodynamics_dz2_table` are identical before and after the call; the
only locations written are the output row `pvecthermo`, the background
buffer `pvecback` and the lookup hint `last_index`, which receive exactly
the query's results. -/
theorem thermodynamics_at_z_state_frame (s : ThermoState) (z : ℚ) (mode : InterMode)
    (back_row : List ℚ) :
    (thermodynamics_at_z_state s z mode back_row).tt_size = s.tt_size ∧
    (thermodynamics_at_z_state s z mode back_row).z_table = s.z_table ∧
    (thermodynamics_at_z_state s z mode back_row).tau_table = s.tau_table ∧
    (thermodynamics_at_z_state s z mode back_row).thermodynamics_table =
      s.thermodynamics_table ∧
    (thermodynamics_at_z_state s z mode back_row).d2thermodynamics_dz2_table =
      s.d2thermodynamics_dz2_table ∧
    (thermodynamics_at_z_state s z mode back_row).pvecthermo =
      (thermodynamics_at_z s.z_table s.thermodynamics_table
        s.d2thermodynamics_dz2_table z mode s.last_index).1 ∧
    (thermodynamics_at_z_state s z mode back_row).last_index =
      (thermodynamics_at_z s.z_table s.thermodynamics_table
        s.d2thermodynamics_dz2_table z mode s.last_index).2 ∧
    (thermodynamics_at_z_state s z mode back_row).pvecback = back_row :=
  ⟨rfl, rfl, rfl, rfl, rfl, rfl, rfl, rfl⟩

/- ===================== Approximation regime intervals (C1) ===================== -/

/-- Modelled from the spec: the body of
`thermodynamics_set_approximation_limits` (declared at `thermodynamics.h`
lines 501-508) is not in src/; per spec section 4.1 and the workspace
fields `ap_z_limits` / `ap_size` it turns the per-regime ending redshifts
into the ordered boundary list of the evolver loop over the requested
domain `[mz_ini, mz_end]` (in the increasing time variable `mz = -z`):
the first boundary is `mz_ini`, the interior boundaries are the negated
ending redshifts of every regime but the last, the final boundary is
`mz_end`, and the regime count is returned as `interval_number`. -/
def thermodynamics_set_approximation_limits (mz_ini mz_end : ℚ)
    (ap_z_limits : List ℚ) : ℕ × List ℚ :=
  (ap_z_limits.length,
    mz_ini :: (ap_z_limits.dropLast.map (fun zl => -zl) ++ [mz_end]))

/-- Modelled from the spec: ownership of an output redshift by regime `i`
of the boundary list `L` (spec section 4.4: a boundary belongs to exactly
one regime's output): the first regime owns both of its ends, every later
regime owns the left-open, right-closed interval up to its ending
boundary. -/
def regime_owns (L : List ℚ) (i : ℕ) (z : ℚ) : Prop :=
  i + 1 < L.length ∧
  ((i = 0 ∧ L.getD 0 0 ≤ z) ∨ (i ≠ 0 ∧ L.getD i 0 < z)) ∧
  z ≤ L.getD (i+1) 0

lemma cons_append_chain (a b : ℚ) (M : List ℚ) (hM : M.Chain' (· < ·))
    (hab : a < b) (hall : ∀ x ∈ M, a < x ∧ x < b) :
    (a :: (M ++ [b])).Chain' (· < ·) := by
  rw [List.chain'_cons']
  constructor
  · intro h hh
    cases M with
    | nil =>
      simp only [List.nil_append, List.head?_cons, Option.mem_def, Option.some.injEq] at hh
      rw [← hh]
      exact hab
    | cons m t =>
      simp only [List.cons_append, List.head?_cons, Option.mem_def, Option.some.injEq] at hh
      rw [← hh]
      exact (hall m (by simp)).1
  · rw [List.chain'_append]
    refine ⟨hM, List.chain'_singleton b, ?_⟩
    intro x hx y hy
    simp only [List.head?_cons, Option.mem_def, Option.some.injEq] at hy
    rw [← hy]
    have hxM : x ∈ M := by
      obtain ⟨hne, hx2⟩ := List.mem_getLast?_eq_getLast hx
      rw [hx2]
      exact List.getLast_mem hne
    exact (hall x hxM).2

lemma exists_owner :
    ∀ (L : List ℚ), L.Chain' (· < ·) → 2 ≤ L.length → ∀ z : ℚ,
      L.getD 0 0 ≤ z → z ≤ L.getD (L.length - 1) 0 → ∃ i, regime_owns L i z := by
  intro L
  induction L with
  | nil => intro _ h2; simp at h2
  | cons a t ih =>
    intro hL h2 z hlo hhi
    cases t with
    | nil => simp at h2
    | cons b rest =>
      have hchain : (b :: rest).Chain' (· < ·) := (List.chain'_cons.1 hL).2
      rcases le_or_lt z b with hzb | hbz
      · refine ⟨0, by simp, Or.inl ⟨rfl, hlo⟩, ?_⟩
        simpa using hzb
      · cases rest with
        | nil =>
          exfalso
          have : z ≤ b := by simpa using hhi
          exact absurd this (not_le.2 hbz)
        | cons c rs =>
          have hlen2 : 2 ≤ (b :: c :: rs).length := by simp
          have hhi' : z ≤ (b :: c :: rs).getD ((b :: c :: rs).length - 1) 0 := by
            have hstep : (a :: b :: c :: rs).getD ((a :: b :: c :: rs).length - 1) 0 =
                (b :: c :: rs).getD ((b :: c :: rs).length - 1) 0 := by
              simp [List.getD_cons_succ]
            rw [← hstep]
            exact hhi
          obtain ⟨i, hown⟩ := ih hchain hlen2 z (le_of_lt hbz) hhi'
          obtain ⟨ho1, ho2, ho3⟩ := hown
          refine ⟨i + 1, by simpa using ho1, Or.inr ⟨by omega, ?_⟩, by simpa using ho3⟩
          show (a :: b :: c :: rs).getD (i+1) 0 < z
      
          rcases ho2 with ⟨hi0, _⟩ | ⟨_, hlt⟩
          · subst hi0
            simpa using hbz
          · simpa using hlt

lemma owner_unique (L : List ℚ) (hL : L.Chain' (· < ·)) (z : ℚ) (i j : ℕ)
    (hi : regime_owns L i z) (hj : regime_owns L j z) : i = j := by
  have key : ∀ p q : ℕ, p < q → regime_owns L p z → regime_owns L q z → False := by
    intro p q hpq hp hq
    obtain ⟨hq1, hq2, _⟩ := hq
    have hqz : L.getD q 0 < z := by
      rcases hq2 with ⟨h0, _⟩ | ⟨_, h⟩
      · omega
      · exact h
    have hple : L.getD (p+1) 0 ≤ L.getD q 0 :=
      sorted_getD_le hL (by omega) (by omega)
    exact absurd (lt_of_lt_of_le (lt_of_lt_of_le hqz hp.2.2) hple) (lt_irrefl _)
  rcases Nat.lt_trichotomy i j with h | h | h
  · exact absurd (key i j h hi hj) not_false
  · exact h
  · exact absurd (key j i h hj hi) not_false

lemma interval_overlap (L : List ℚ) (hL : L.Chain' (· < ·)) (i j : ℕ) (z : ℚ)
    (hij : i < j) (hj1 : j + 1 < L.length)
    (h1 : L.getD i 0 ≤ z) (h2 : z ≤ L.getD (i+1) 0)
    (h3 : L.getD j 0 ≤ z) (h4 : z ≤ L.getD (j+1) 0) :
    j = i + 1 ∧ z = L.getD j 0 := by
  have hgd : L.getD (i+1) 0 ≤ L.getD j 0 := sorted_getD_le hL (by omega) (by omega)
  have hz : z = L.getD j 0 := le_antisymm (le_trans h2 hgd) h3
  constructor
  · by_contra hne
    have hlt : i + 1 < j := by omega
    have := sorted_getD_lt hL hlt (by omega)
    have : z < L.getD j 0 := lt_of_le_of_lt h2 this
    rw [hz] at this
    exact absurd this (lt_irrefl _)
  · exact hz

lemma getD_append_last (M : List ℚ) (b : ℚ) : (M ++ [b]).getD M.length 0 = b := by
  induction M with
  | nil => rfl
  | cons m t ih => simpa using ih

/-- C1: for every valid precision configuration (non-empty regime list,
strictly decreasing interior boundaries lying strictly inside the requested
domain), the interval-boundary list produced by
`thermodynamics_set_approximation_limits` is strictly increasing in the
time variable (strictly decreasing in redshift), has exactly
`interval_number + 1` entries running from `mz_ini` to `mz_end`, covers the
whole requested domain with every output redshift owned by exactly one
regime (boundary redshifts included), and distinct intervals overlap in at
most the single shared boundary of adjacent intervals. -/
theorem thermodynamics_set_approximation_limits_partition
    (mz_ini mz_end : ℚ) (ap_z_limits : List ℚ)
    (hne : ap_z_limits ≠ [])
    (hdec : ap_z_limits.dropLast.Chain' (· > ·))
    (hin : ∀ l ∈ ap_z_limits.dropLast, mz_ini < -l ∧ -l < mz_end)
    (hdom : mz_ini < mz_end)
    (L : List ℚ)
    (hLdef : L = (thermodynamics_set_approximation_limits mz_ini mz_end ap_z_limits).2) :
    L.Chain' (· < ·) ∧
    L.length = (thermodynamics_set_approximation_limits mz_ini mz_end ap_z_limits).1 + 1 ∧
    L.getD 0 0 = mz_ini ∧
    L.getD (L.length - 1) 0 = mz_end ∧
    (∀ z : ℚ, mz_ini ≤ z → z ≤ mz_end → ∃! i, regime_owns L i z) ∧
    (∀ i j : ℕ, ∀ z : ℚ, i < j → j + 1 < L.length →
      L.getD i 0 ≤ z → z ≤ L.getD (i+1) 0 → L.getD j 0 ≤ z → z ≤ L.getD (j+1) 0 →
      j = i + 1 ∧ z = L.getD j 0) := by
  have hLeq : (thermodynamics_set_approximation_limits mz_ini mz_end ap_z_limits).2 =
      mz_ini :: (ap_z_limits.dropLast.map (fun zl => -zl) ++ [mz_end]) := rfl
  have hNeq : (thermodynamics_set_approximation_limits mz_ini mz_end ap_z_limits).1 =
      ap_z_limits.length := rfl
  subst hLdef
  rw [hLeq, hNeq]
  set M := ap_z_limits.dropLast.map (fun zl => -zl) with hMdef
  have hMchain : M.Chain' (· < ·) := by
    rw [hMdef, List.chain'_map]
    exact hdec.imp (fun a b h => neg_lt_neg h)
  have hall : ∀ x ∈ M, mz_ini < x ∧ x < mz_end := by
    intro x hx
    rw [hMdef, List.mem_map] at hx
    obtain ⟨l, hl, rfl⟩ := hx
    exact hin l hl
  have hchain : (mz_ini :: (M ++ [mz_end])).Chain' (· < ·) :=
    cons_append_chain _ _ M hMchain hdom hall
  have hlen : (mz_ini :: (M ++ [mz_end])).length = M.length + 2 := by simp
  have hlen2 : 2 ≤ (mz_ini :: (M ++ [mz_end])).length := by omega
  have hfirst : (mz_ini :: (M ++ [mz_end])).getD 0 0 = mz_ini := rfl
  have hlast : (mz_ini :: (M ++ [mz_end])).getD ((mz_ini :: (M ++ [mz_end])).length - 1) 0
      = mz_end := by
    rw [hlen]
    show (M ++ [mz_end]).getD (M.length) 0 = mz_end
    exact getD_append_last M mz_end
  refine ⟨hchain, ?_, hfirst, hlast, ?_, ?_⟩
  · have hpos : 1 ≤ ap_z_limits.length := List.length_pos.2 hne
    have : M.length = ap_z_limits.length - 1 := by
      rw [hMdef, List.length_map, List.length_dropLast]
    omega
  · intro z hz1 hz2
    obtain ⟨i, hi⟩ := exists_owner _ hchain hlen2 z (by rw [hfirst]; exact hz1)
      (by rw [hlast]; exact hz2)
    exact ⟨i, hi, fun j hj => owner_unique _ hchain z j i hj hi⟩
  · intro i j z hij hj1 h1 h2 h3 h4
    exact interval_overlap _ hchain i j z hij hj1 h1 h2 h3 h4

/-- C1 witness: the partition theorem applied to the concrete domain
[-3000, 0] with regime ending redshifts 2000, 100 and 0: the output
redshift -50 (inside the last interval) has exactly one owning regime. -/
theorem thermodynamics_set_approximation_limits_partition_witness :
    ∃! i, regime_owns
      ((thermodynamics_set_approximation_limits (-3000) 0 [2000, 100, 0]).2) i (-50) :=
  (thermodynamics_set_approximation_limits_partition (-3000) 0 [2000, 100, 0]
    (by decide) (by norm_num [List.chain'_cons]) (by norm_num) (by norm_num)
    _ rfl).2.2.2.2.1 (-50) (by norm_num) (by norm_num)

/- ===================== Reionization shooting solver (C2) ===================== -/

/-- Modelled from the spec: computable stand-in for the tanh smooth step of
the `reio_camb` profile (spec section 4.5); a monotone ramp from 0 to 1.
Only monotonicity and the short-map property of the step shape are used. -/
def reio_smooth_step (x : ℚ) : ℚ := max 0 (min 1 x)

/-- Modelled from the spec: the reionization ionization-fraction profile
(spec section 3, Reionization Parameter Set: onset redshift, width,
pre/post ionization levels): the ionization fraction rises from `xe_pre`
(before reionization) to `xe_post` (after) as `z` drops below the onset
redshift `z_on`. -/
def reio_xe_profile (xe_pre xe_post width z_on z : ℚ) : ℚ :=
  xe_pre + (xe_post - xe_pre) * reio_smooth_step ((z_on - z) / width)

/-- Modelled from the spec: the optical depth computed from the candidate
reionization history (spec section 4.5, step (c) of the shooting loop;
`thermo_workspace.reionization_optical_depth` in the header): a Riemann sum
of the ionization-fraction profile over a fixed redshift grid with weight
`dz` per node. -/
def reionization_optical_depth (xe_pre xe_post width dz : ℚ) (zs : List ℚ)
    (z_on : ℚ) : ℚ :=
  dz * ((zs.map (fun z => reio_xe_profile xe_pre xe_post width z_on z)).sum)

/-- Modelled from the spec: one bracket-halving iteration of the shooting
loop of `thermodynamics_reionization_get_tau` /
`thermodynamics_reionization_evolve_with_tau` (declared at
`thermodynamics.h` lines 489-498): evaluate the computed optical depth at
the bracket midpoint and keep the half-bracket that still contains the
target. -/
def reio_bisect_step (f : ℚ → ℚ) (target : ℚ) (p : ℚ × ℚ) : ℚ × ℚ :=
  let mid := (p.1 + p.2) / 2
  if f mid ≤ target then (mid, p.2) else (p.1, mid)

/-- Modelled from the spec: the body of
`thermodynamics_reionization_get_tau` is not in src/; per spec section 4.5
it performs a bracketed root search (bisection) in the onset-redshift
parameter for the map `f` from onset redshift to computed optical depth,
running `n` halving iterations from the initial bracket `[lo, hi]`. -/
def thermodynamics_reionization_get_tau (f : ℚ → ℚ) (target lo hi : ℚ) :
    ℕ → ℚ × ℚ
  | 0 => (lo, hi)
  | n+1 => reio_bisect_step f target (thermodynamics_reionization_get_tau f target lo hi n)

lemma reio_smooth_step_mono : Monotone reio_smooth_step := by
  intro a b h
  exact max_le_max le_rfl (min_le_min le_rfl h)

lemma reio_smooth_step_lip {a b : ℚ} (h : a ≤ b) :
    reio_smooth_step b - reio_smooth_step a ≤ b - a := by
  simp only [reio_smooth_step, max_def, min_def]
  split_ifs <;> linarith

lemma reio_xe_profile_mono {xe_pre xe_post width : ℚ} (hxe : xe_pre ≤ xe_post)
    (hw : 0 < width) (z : ℚ) :
    Monotone (fun z_on => reio_xe_profile xe_pre xe_post width z_on z) := by
  intro a b hab
  simp only [reio_xe_profile]
  have harg : (a - z) / width ≤ (b - z) / width :=
    (div_le_div_right hw).2 (by linarith)
  exact add_le_add_left
    (mul_le_mul_of_nonneg_left (reio_smooth_step_mono harg) (by linarith)) _

lemma reio_xe_profile_lip {xe_pre xe_post width : ℚ} (hxe : xe_pre ≤ xe_post)
    (hw : 0 < width) (z : ℚ) {a b : ℚ} (hab : a ≤ b) :
    reio_xe_profile xe_pre xe_post width b z - reio_xe_profile xe_pre xe_post width a z ≤
      ((xe_post - xe_pre) / width) * (b - a) := by
  simp only [reio_xe_profile]
  have harg : (a - z) / width ≤ (b - z) / width :=
    (div_le_div_right hw).2 (by linarith)
  have hstep := reio_smooth_step_lip harg
  have hd : (b - z) / width - (a - z) / width = (b - a) / width := by ring
  rw [hd] at hstep
  have hd2 : (0:ℚ) ≤ xe_post - xe_pre := by linarith
  have h1 : (xe_post - xe_pre) * (reio_smooth_step ((b - z) / width) -
      reio_smooth_step ((a - z) / width)) ≤ (xe_post - xe_pre) * ((b - a) / width) :=
    mul_le_mul_of_nonneg_left hstep hd2
  have h2 : (xe_post - xe_pre) * ((b - a) / width) =
      (xe_post - xe_pre) / width * (b - a) := by ring
  linarith [h1, h2]

lemma sum_map_le_sum_map_add {g h : ℚ → ℚ} (K : ℚ) :
    ∀ zs : List ℚ, (∀ z ∈ zs, g z ≤ h z + K) →
      (zs.map g).sum ≤ (zs.map h).sum + zs.length * K := by
  intro zs
  induction zs with
  | nil => intro _; simp
  | cons z t ih =>
    intro hall
    have h1 := hall z (by simp)
    have h2 := ih (fun w hw => hall w (by simp [hw]))
    simp only [List.map_cons, List.sum_cons, List.length_cons]
    push_cast
    linarith

lemma reionization_optical_depth_mono {xe_pre xe_post width dz : ℚ} (zs : List ℚ)
    (hw : 0 < width) (hxe : xe_pre ≤ xe_post) (hdz : 0 ≤ dz) :
    Monotone (reionization_optical_depth xe_pre xe_post width dz zs) := by
  intro a b hab
  simp only [reionization_optical_depth]
  refine mul_le_mul_of_nonneg_left ?_ hdz
  exact List.sum_le_sum (fun z _ => reio_xe_profile_mono hxe hw z hab)

lemma reionization_optical_depth_lip {xe_pre xe_post width dz : ℚ} (zs : List ℚ)
    (hw : 0 < width) (hxe : xe_pre ≤ xe_post) (hdz : 0 ≤ dz) {a b : ℚ} (hab : a ≤ b) :
    reionization_optical_depth xe_pre xe_post width dz zs b -
      reionization_optical_depth xe_pre xe_post width dz zs a ≤
      (dz * zs.length * ((xe_post - xe_pre) / width)) * (b - a) := by
  simp only [reionization_optical_depth]
  have hsum := @sum_map_le_sum_map_add
    (fun z => reio_xe_profile xe_pre xe_post width b z)
    (fun z => reio_xe_profile xe_pre xe_post width a z)
    (((xe_post - xe_pre) / width) * (b - a)) zs
    (fun z _ => by
      have hl := reio_xe_profile_lip hxe hw z hab
      linarith [hl])
  have hmul := mul_le_mul_of_nonneg_left hsum hdz
  have hexp : dz * ((zs.map (fun z => reio_xe_profile xe_pre xe_post width a z)).sum +
      zs.length * (((xe_post - xe_pre) / width) * (b - a))) =
      dz * (zs.map (fun z => reio_xe_profile xe_pre xe_post width a z)).sum +
      dz * zs.length * ((xe_post - xe_pre) / width) * (b - a) := by ring
  have hassoc : (dz * zs.length * ((xe_post - xe_pre) / width)) * (b - a) =
      dz * zs.length * ((xe_post - xe_pre) / width) * (b - a) := by ring
  rw [hassoc]
  linarith [hmul, hexp]

lemma reio_bisect_width (f : ℚ → ℚ) (target lo hi : ℚ) :
    ∀ n : ℕ, (thermodynamics_reionization_get_tau f target lo hi n).2 -
      (thermodynamics_reionization_get_tau f target lo hi n).1 = (hi - lo) / 2^n := by
  intro n
  induction n with
  | zero => simp [thermodynamics_reionization_get_tau]
  | succ n ih =>
    have hpow : (hi - lo) / 2^(n+1) = ((hi - lo) / 2^n) / 2 := by
      rw [pow_succ]
      ring
    simp only [thermodynamics_reionization_get_tau, reio_bisect_step]
    split_ifs
    · rw [hpow]
      simp only []
      linarith [ih]
    · rw [hpow]
      simp only []
      linarith [ih]

lemma reio_bisect_invariant (f : ℚ → ℚ) (target lo hi : ℚ)
    (hlo : f lo ≤ target) (hhi : target ≤ f hi) :
    ∀ n : ℕ, f (thermodynamics_reionization_get_tau f target lo hi n).1 ≤ target ∧
      target ≤ f (thermodynamics_reionization_get_tau f target lo hi n).2 := by
  intro n
  induction n with
  | zero => exact ⟨hlo, hhi⟩
  | succ n ih =>
    simp only [thermodynamics_reionization_get_tau, reio_bisect_step]
    split_ifs with hc
    · exact ⟨hc, ih.2⟩
    · exact ⟨ih.1, le_of_lt (not_le.1 hc)⟩

lemma reio_bisect_bounds (f : ℚ → ℚ) (target lo hi : ℚ) (hlohi : lo ≤ hi) :
    ∀ n : ℕ, lo ≤ (thermodynamics_reionization_get_tau f target lo hi n).1 ∧
      (thermodynamics_reionization_get_tau f target lo hi n).1 ≤
        (thermodynamics_reionization_get_tau f target lo hi n).2 ∧
      (thermodynamics_reionization_get_tau f target lo hi n).2 ≤ hi := by
  intro n
  induction n with
  | zero => exact ⟨le_refl lo, hlohi, le_refl hi⟩
  | succ n ih =>
    obtain ⟨h1, h2, h3⟩ := ih
    simp only [thermodynamics_reionization_get_tau, reio_bisect_step]
    split_ifs
    · exact ⟨by linarith, by linarith, h3⟩
    · exact ⟨h1, by linarith, by linarith⟩

/-- C2: for a fixed reionization profile shape, the computed reionization
optical depth is monotonically non-decreasing in the onset-redshift
parameter and Lipschitz with the explicit constant
`dz * #grid * (xe_post - xe_pre) / width`; and for every target optical
depth between the achievable minimum and maximum of the bracket, the
bisection shooting loop of `thermodynamics_reionization_get_tau`
terminates (after enough halvings for the tolerance) with a computed
optical depth within the configured tolerance of the target. -/
theorem reionization_tau_monotone_shooting_converges
    (xe_pre xe_post width dz : ℚ) (zs : List ℚ)
    (hw : 0 < width) (hxe : xe_pre ≤ xe_post) (hdz : 0 ≤ dz) :
    Monotone (reionization_optical_depth xe_pre xe_post width dz zs) ∧
    (∀ a b : ℚ, a ≤ b →
      reionization_optical_depth xe_pre xe_post width dz zs b -
        reionization_optical_depth xe_pre xe_post width dz zs a ≤
      (dz * zs.length * ((xe_post - xe_pre) / width)) * (b - a)) ∧
    (∀ (f : ℚ → ℚ) (K target lo hi tol : ℚ) (n : ℕ),
      lo ≤ hi →
      (∀ a b : ℚ, lo ≤ a → a ≤ b → b ≤ hi → f b - f a ≤ K * (b - a)) →
      f lo ≤ target → target ≤ f hi → K * (hi - lo) ≤ tol * 2^n →
      |f ((thermodynamics_reionization_get_tau f target lo hi n).1) - target| ≤ tol) := by
  refine ⟨reionization_optical_depth_mono zs hw hxe hdz,
    fun a b hab => reionization_optical_depth_lip zs hw hxe hdz hab, ?_⟩
  intro f K target lo hi tol n hlohi hlip hflo hfhi hK
  obtain ⟨hI1, hI2⟩ := reio_bisect_invariant f target lo hi hflo hfhi n
  obtain ⟨hB1, hB2, hB3⟩ := reio_bisect_bounds f target lo hi hlohi n
  have hwidth := reio_bisect_width f target lo hi n
  have hdiff : f (thermodynamics_reionization_get_tau f target lo hi n).2 -
      f (thermodynamics_reionization_get_tau f target lo hi n).1 ≤
      K * ((thermodynamics_reionization_get_tau f target lo hi n).2 -
        (thermodynamics_reionization_get_tau f target lo hi n).1) :=
    hlip _ _ hB1 hB2 hB3
  rw [hwidth] at hdiff
  have habs : |f (thermodynamics_reionization_get_tau f target lo hi n).1 - target| =
      target - f (thermodynamics_reionization_get_tau f target lo hi n).1 := by
    rw [abs_of_nonpos (by linarith)]
    ring
  rw [habs]
  have hpow : (0:ℚ) < 2^n := pow_pos (by norm_num) n
  have hfin : K * (hi - lo) / 2^n ≤ tol := (div_le_iff hpow).2 hK
  have heq : K * ((hi - lo) / 2^n) = K * (hi - lo) / 2^n := by ring
  linarith [hI2, hdiff, hfin, heq]

/-- C2 witness: the shooting theorem applied to the concrete model profile
with pre/post levels 0 and 1, width 1, grid [10], target 1/2 on the bracket
[0, 20] with tolerance 1 after 5 halvings. -/
theorem reionization_tau_monotone_shooting_converges_witness :
    |reionization_optical_depth 0 1 1 1 [10]
      ((thermodynamics_reionization_get_tau (reionization_optical_depth 0 1 1 1 [10])
        (1/2) 0 20 5).1) - 1/2| ≤ 1 := by
  have h := reionization_tau_monotone_shooting_converges 0 1 1 1 [10]
    (by norm_num) (by norm_num) (by norm_num)
  refine h.2.2 (reionization_optical_depth 0 1 1 1 [10])
    (1 * (List.length [(10:ℚ)] : ℚ) * ((1 - 0) / 1)) (1/2) 0 20 1 5
    (by norm_num) (fun a b _ hab _ => h.2.1 a b hab) ?_ ?_ (by norm_num)
  · norm_num [reionization_optical_depth, reio_xe_profile, reio_smooth_step,
      min_def, max_def]
  · norm_num [reionization_optical_depth, reio_xe_profile, reio_smooth_step,
      min_def, max_def]

/- ===================== Energy injection window (C4) ===================== -/

open Classical in
/-- Modelled from the spec: the body of
`thermodynamics_solve_energy_injection` (declared at `thermodynamics.h`
lines 438-443) is not in src/; per the header doc of
`thermo.annihilation_variation` (lines 124-130) and spec section 4.2, the
annihilation rate F(z) has log F a parabola in u = log(1+z) with curvature
`v` (negative) and maximum at `u_max = log(1+zmax)`, held constant at its
boundary value outside the window `[u_min, u_max]`.  This is that log-log
profile: the log-rate as a function of u, with `c` the value at the
maximum. -/
noncomputable def solve_energy_injection_log_rate (v u_min u_max c : ℝ) (u : ℝ) : ℝ :=
  if u < u_min then c + v * (u_min - u_max)^2
  else if u ≤ u_max then c + v * (u - u_max)^2
  else c

lemma injection_eq_const_left {v u_min u_max c : ℝ} (hle : u_min ≤ u_max) :
    Set.EqOn (solve_energy_injection_log_rate v u_min u_max c)
      (fun _ => c + v * (u_min - u_max)^2) (Set.Iic u_min) := by
  intro u hu
  simp only [Set.mem_Iic] at hu
  rcases lt_or_eq_of_le hu with h | h
  · simp [solve_energy_injection_log_rate, h]
  · subst h
    simp [solve_energy_injection_log_rate, lt_irrefl, hle]

lemma injection_eq_parabola {v u_min u_max c : ℝ} :
    Set.EqOn (solve_energy_injection_log_rate v u_min u_max c)
      (fun u => c + v * (u - u_max)^2) (Set.Icc u_min u_max) := by
  intro u hu
  simp only [Set.mem_Icc] at hu
  simp [solve_energy_injection_log_rate, not_lt.2 hu.1, hu.2]

lemma injection_eq_const_right {v u_min u_max c : ℝ} (hle : u_min ≤ u_max) :
    Set.EqOn (solve_energy_injection_log_rate v u_min u_max c)
      (fun _ => c) (Set.Ici u_max) := by
  intro u hu
  simp only [Set.mem_Ici] at hu
  rcases eq_or_lt_of_le hu with h | h
  · rw [← h]
    simp [solve_energy_injection_log_rate, not_lt.2 hle]
  · simp [solve_energy_injection_log_rate, not_lt.2 (le_trans hle (le_of_lt h)), not_le.2 h]

lemma parabola_hasDerivAt (v u_max c x : ℝ) :
    HasDerivAt (fun u => c + v * (u - u_max)^2) (2 * v * (x - u_max)) x := by
  have h := (((hasDerivAt_id x).sub_const u_max).pow 2).const_mul v |>.const_add c
  convert h using 1
  simp only [id_eq]
  ring

lemma injection_hasDerivAt_umax {v u_min u_max c : ℝ} (hlt : u_min < u_max) :
    HasDerivAt (solve_energy_injection_log_rate v u_min u_max c) 0 u_max := by
  have hval : solve_energy_injection_log_rate v u_min u_max c u_max = c := by
    have h := @injection_eq_parabola v u_min u_max c u_max ⟨le_of_lt hlt, le_refl u_max⟩
    rw [h]
    simp
  have hleft : HasDerivWithinAt (solve_energy_injection_log_rate v u_min u_max c) 0
      (Set.Iic u_max) u_max := by
    have hpar : HasDerivWithinAt (fun u => c + v * (u - u_max)^2) 0 (Set.Iic u_max) u_max := by
      have h : HasDerivWithinAt (fun u => c + v * (u - u_max)^2)
          (2 * v * (u_max - u_max)) (Set.Iic u_max) u_max :=
        (parabola_hasDerivAt v u_max c u_max).hasDerivWithinAt
      simpa using h
    refine hpar.congr_of_eventuallyEq ?_ (by rw [hval]; simp)
    have hev : ∀ᶠ u in nhdsWithin u_max (Set.Iic u_max), u_min < u :=
      (eventually_gt_nhds hlt).filter_mono nhdsWithin_le_nhds
    filter_upwards [hev, self_mem_nhdsWithin] with u hu1 hu2
    exact injection_eq_parabola ⟨le_of_lt hu1, hu2⟩
  have hright : HasDerivWithinAt (solve_energy_injection_log_rate v u_min u_max c) 0
      (Set.Ici u_max) u_max := by
    have hconst : HasDerivWithinAt (fun _ : ℝ => c) 0 (Set.Ici u_max) u_max :=
      (hasDerivAt_const u_max c).hasDerivWithinAt
    exact hconst.congr (injection_eq_const_right (le_of_lt hlt)) hval
  have hunion := hleft.union hright
  rw [Set.Iic_union_Ici] at hunion
  exact hasDerivWithinAt_univ.1 hunion

lemma injection_continuousAt_umin {v u_min u_max c : ℝ} (hlt : u_min < u_max) :
    ContinuousAt (solve_energy_injection_log_rate v u_min u_max c) u_min := by
  have hval : solve_energy_injection_log_rate v u_min u_max c u_min =
      c + v * (u_min - u_max)^2 :=
    injection_eq_const_left (le_of_lt hlt) (Set.right_mem_Iic)
  have hleft : ContinuousWithinAt (solve_energy_injection_log_rate v u_min u_max c)
      (Set.Iic u_min) u_min :=
    continuousWithinAt_const.congr (injection_eq_const_left (le_of_lt hlt)) hval
  have hright : ContinuousWithinAt (solve_energy_injection_log_rate v u_min u_max c)
      (Set.Ici u_min) u_min := by
    have hpar : ContinuousWithinAt (fun u => c + v * (u - u_max)^2)
        (Set.Ici u_min) u_min :=
      ((parabola_hasDerivAt v u_max c u_min).continuousAt).continuousWithinAt
    refine hpar.congr_of_eventuallyEq ?_ ?_
    · have hev : ∀ᶠ u in nhdsWithin u_min (Set.Ici u_min), u < u_max :=
        (eventually_lt_nhds hlt).filter_mono nhdsWithin_le_nhds
      filter_upwards [hev, self_mem_nhdsWithin] with u hu1 hu2
      exact injection_eq_parabola ⟨hu2, le_of_lt hu1⟩
    · rw [hval]
  have hunion := hleft.union hright
  rw [Set.Iic_union_Ici] at hunion
  exact continuousWithinAt_univ _ _ |>.1 hunion

lemma injection_not_differentiableAt_umin {v u_min u_max c : ℝ} (hv : v ≠ 0)
    (hlt : u_min < u_max) :
    ¬ DifferentiableAt ℝ (solve_energy_injection_log_rate v u_min u_max c) u_min := by
  intro hdiff
  have hd := hdiff.hasDerivAt
  have hval : solve_energy_injection_log_rate v u_min u_max c u_min =
      c + v * (u_min - u_max)^2 :=
    injection_eq_const_left (le_of_lt hlt) (Set.right_mem_Iic)
  have hleft : HasDerivWithinAt (solve_energy_injection_log_rate v u_min u_max c) 0
      (Set.Iic u_min) u_min := by
    have hconst : HasDerivWithinAt (fun _ : ℝ => c + v * (u_min - u_max)^2) 0
        (Set.Iic u_min) u_min :=
      (hasDerivAt_const u_min (c + v * (u_min - u_max)^2)).hasDerivWithinAt
    exact hconst.congr (injection_eq_const_left (le_of_lt hlt)) hval
  have hright : HasDerivWithinAt (solve_energy_injection_log_rate v u_min u_max c)
      (2 * v * (u_min - u_max)) (Set.Icc u_min u_max) u_min := by
    have hpar : HasDerivWithinAt (fun u => c + v * (u - u_max)^2)
        (2 * v * (u_min - u_max)) (Set.Icc u_min u_max) u_min :=
      (parabola_hasDerivAt v u_max c u_min).hasDerivWithinAt
    exact hpar.congr injection_eq_parabola
      (injection_eq_parabola ⟨le_refl u_min, le_of_lt hlt⟩)
  have hIic : UniqueDiffWithinAt ℝ (Set.Iic u_min) u_min :=
    uniqueDiffOn_Iic u_min u_min Set.right_mem_Iic
  have hIcc : UniqueDiffWithinAt ℝ (Set.Icc u_min u_max) u_min :=
    uniqueDiffOn_Icc hlt u_min ⟨le_refl u_min, le_of_lt hlt⟩
  have e1 : (0 : ℝ) = deriv (solve_energy_injection_log_rate v u_min u_max c) u_min :=
    hIic.eq_deriv _ hleft (hd.hasDerivWithinAt)
  have e2 : (2 * v * (u_min - u_max)) =
      deriv (solve_energy_injection_log_rate v u_min u_max c) u_min :=
    hIcc.eq_deriv _ hright (hd.hasDerivWithinAt)
  have : 2 * v * (u_min - u_max) = 0 := by rw [e2, ← e1]
  have hne : u_min - u_max ≠ 0 := sub_ne_zero.2 (ne_of_lt hlt)
  have : v * (u_min - u_max) = 0 := by linarith
  rcases mul_eq_zero.1 this with h | h
  · exact hv h
  · exact hne h

/-- C4 counterexample: a valid parameter combination (curvature -1, window
[0,1] in the log variable) at which the spec-described log-log annihilation
profile is not differentiable at the lower window edge: the parabola's
slope there is 2*v*(u_min - u_max) = 2 while the constant region outside
has slope 0, so value and derivative cannot both match at zmin. -/
theorem solve_energy_injection_not_smooth_at_zmin :
    (-1 : ℝ) < 0 ∧ (0 : ℝ) < (1 : ℝ) ∧
    ¬ DifferentiableAt ℝ (solve_energy_injection_log_rate (-1) 0 1 0) 0 :=
  ⟨by norm_num, by norm_num,
    injection_not_differentiableAt_umin (by norm_num) (by norm_num)⟩

/-- C4 amended: for every parameter combination with zmin < zmax and
negative annihilation_variation, the energy-injection profile is continuous
at both window edges, and matches the constant-rate region in both value
and derivative at z = zmax (where the parabola has its maximum); at
z = zmin only the value matches: the profile is not differentiable there
(the parabola meets the constant region with a non-zero slope). -/
theorem solve_energy_injection_boundary_behavior (v u_min u_max c : ℝ)
    (hv : v < 0) (hlt : u_min < u_max) :
    ContinuousAt (solve_energy_injection_log_rate v u_min u_max c) u_min ∧
    ContinuousAt (solve_energy_injection_log_rate v u_min u_max c) u_max ∧
    HasDerivAt (solve_energy_injection_log_rate v u_min u_max c) 0 u_max ∧
    ¬ DifferentiableAt ℝ (solve_energy_injection_log_rate v u_min u_max c) u_min :=
  ⟨injection_continuousAt_umin hlt, (injection_hasDerivAt_umax hlt).continuousAt,
    injection_hasDerivAt_umax hlt,
    injection_not_differentiableAt_umin (ne_of_lt hv) hlt⟩

/-- C4 witness: the boundary-behavior theorem at curvature -1, window
[0, 1], peak log-rate 0. -/
theorem solve_energy_injection_boundary_behavior_witness :
    ContinuousAt (solve_energy_injection_log_rate (-1) 0 1 0) 0 ∧
    ContinuousAt (solve_energy_injection_log_rate (-1) 0 1 0) 1 ∧
    HasDerivAt (solve_energy_injection_log_rate (-1) 0 1 0) 0 1 ∧
    ¬ DifferentiableAt ℝ (solve_energy_injection_log_rate (-1) 0 1 0) 0 :=
  solve_energy_injection_boundary_behavior (-1) 0 1 0 (by norm_num) (by norm_num)

/- ===================== Visibility normalization (C6) ===================== -/

/-- Modelled from the spec: the visibility function assembled by
`thermodynamics_calculate_opticals` (declared at `thermodynamics.h` line
540; body not in src/): per the header doc of `index_th_g` (line 150) and
the spec glossary, g = (d kappa / d tau) * exp(-kappa), where `kappa(tau)`
is the optical depth measured from today backwards (so `kappa` vanishes
today) and `r = d kappa / d tau` is the positive scattering rate, i.e.
`kappa` decreases at rate `r` as conformal time advances. -/
noncomputable def visibility (r kappa : ℝ → ℝ) (tau : ℝ) : ℝ :=
  r tau * Real.exp (-(kappa tau))

/-- C6: the integral of the visibility function over the full tabulated
domain `[tau_ini, tau_today]` equals 1 up to the tolerance
`exp(-kappa(tau_ini))`, which is below any requested tolerance `eps` once
the initial optical depth is deep enough: g is a properly normalized
probability density for last scattering. -/
theorem visibility_normalization (r kappa : ℝ → ℝ) (a b : ℝ)
    (hderiv : ∀ t ∈ Set.uIcc a b, HasDerivAt kappa (-(r t)) t)
    (hcont : ContinuousOn r (Set.uIcc a b))
    (hkb : kappa b = 0) (eps : ℝ) (heps : Real.exp (-(kappa a)) ≤ eps) :
    |(∫ t in a..b, visibility r kappa t) - 1| ≤ eps := by
  have hF : ∀ t ∈ Set.uIcc a b,
      HasDerivAt (fun t => Real.exp (-(kappa t))) (visibility r kappa t) t := by
    intro t ht
    have h1 := (hderiv t ht).neg
    have h2 := h1.exp
    have h3 : Real.exp (-(kappa t)) * (-(-(r t))) = visibility r kappa t := by
      simp only [visibility]
      ring
    rw [h3] at h2
    exact h2
  have hkcont : ContinuousOn kappa (Set.uIcc a b) :=
    fun t ht => ((hderiv t ht).continuousAt).continuousWithinAt
  have hcont2 : ContinuousOn (visibility r kappa) (Set.uIcc a b) :=
    hcont.mul (Real.continuous_exp.comp_continuousOn hkcont.neg)
  have hint : IntervalIntegrable (visibility r kappa) MeasureTheory.volume a b :=
    hcont2.intervalIntegrable
  have hFTC := intervalIntegral.integral_eq_sub_of_hasDerivAt hF hint
  rw [hFTC, hkb]
  simp only [neg_zero, Real.exp_zero]
  have hring : (1 : ℝ) - Real.exp (-(kappa a)) - 1 = -(Real.exp (-(kappa a))) := by ring
  rw [hring, abs_neg, abs_of_pos (Real.exp_pos _)]
  exact heps

/-- C6 witness: the normalization theorem for the concrete optical depth
kappa(tau) = 1 - tau with unit scattering rate on [0, 1], tolerance 1. -/
theorem visibility_normalization_witness :
    |(∫ t in (0:ℝ)..1, visibility (fun _ => 1) (fun t => 1 - t) t) - 1| ≤ 1 :=
  visibility_normalization (fun _ => 1) (fun t => 1 - t) 0 1
    (fun t _ => by simpa using (hasDerivAt_id t).const_sub (1:ℝ))
    continuousOn_const (by norm_num) 1
    (le_trans (Real.exp_le_exp.2 (by norm_num)) (le_of_eq Real.exp_zero))

/-- C9 witness: the frame theorem applied to a concrete populated state. -/
theorem thermodynamics_at_z_state_frame_witness :
    (thermodynamics_at_z_state
      ⟨3, [0, 1, 2], [5, 6, 7], [[1]], [[0]], 0, [], []⟩ 1 .inter_normal []).z_table =
      [0, 1, 2] ∧
    (thermodynamics_at_z_state
      ⟨3, [0, 1, 2], [5, 6, 7], [[1]], [[0]], 0, [], []⟩ 1 .inter_normal []).tau_table =
      [5, 6, 7] :=
  ⟨(thermodynamics_at_z_state_frame
      ⟨3, [0, 1, 2], [5, 6, 7], [[1]], [[0]], 0, [], []⟩ 1 .inter_normal []).2.1,
    (thermodynamics_at_z_state_frame
      ⟨3, [0, 1, 2], [5, 6, 7], [[1]], [[0]], 0, [], []⟩ 1 .inter_normal []).2.2.1⟩
